import Mathlib

/-!
# build/stb_wrapper.c

The repository's C source is one translation unit made of comments and
preprocessing directives.  The development below embeds the text of the file,
the early translation phases of C that give the text its meaning (line
splicing, comment removal, directive recognition) and the effect of the
directives on the macro table, and proves what the file contains and in which
order.
-/

namespace StbWrapper

/-! ## The source text -/

/-- Text of build/stb_wrapper.c, one literal per source line; the file ends
without a final newline. -/
def stb_wrapper_c : String :=
  "// C wrapper for stb_image to avoid Zig translation issues\n" ++
  "#define STB_IMAGE_IMPLEMENTATION\n" ++
  "#define STBI_NO_SIMD\n" ++
  "#include \"stb_image.h\"\n" ++
  "\n" ++
  "// The stb functions are now available to link against\n" ++
  "// No additional wrapper functions needed - we just need this translation unit\n" ++
  "// to provide the implementation"

/-! ## Translation phases 1 and 2: physical lines, line splicing -/

def newline : Char := Char.ofNat 10

def backslash : Char := Char.ofNat 92

def dquote : Char := Char.ofNat 34

def squote : Char := Char.ofNat 39

/-- Split a character stream at newlines; `cur` holds the current line reversed. -/
def splitLinesAux : List Char → List Char → List (List Char)
  | [], cur => [cur.reverse]
  | c :: cs, cur =>
    if c = newline then cur.reverse :: splitLinesAux cs []
    else splitLinesAux cs (c :: cur)

def physicalLines (s : String) : List (List Char) :=
  splitLinesAux s.data []

/-- Phase 2: a backslash at the end of a physical line joins it to the next one.
`pend` is the logical line collected so far. -/
def spliceAux : List Char → List (List Char) → List (List Char)
  | pend, [] => if pend.isEmpty then [] else [pend]
  | pend, l :: rest =>
    if l.getLast? = some backslash then spliceAux (pend ++ l.dropLast) rest
    else (pend ++ l) :: spliceAux [] rest

def logicalLines (s : String) : List (List Char) :=
  spliceAux [] (physicalLines s)

/-! ## Translation phase 3: comments -/

/-- Lexer modes while scanning for comments. -/
inductive Mode
  | normal
  | slash
  | lineComment
  | blockComment
  | blockStar
  | str
  | strEsc
  | chr
  | chrEsc
  deriving DecidableEq

/-- One logical line after phase 3: what is left of it once every comment is
replaced by a space, and whether a comment covered part of the line. -/
structure Line where
  residue : List Char
  commented : Bool
  deriving DecidableEq

/-- Scanner state: the mode, the current line (residue reversed) and the lines
finished so far (reversed). -/
structure Scan where
  mode : Mode
  cur : List Char
  commented : Bool
  done : List Line

def Scan.emit (s : Scan) (c : Char) : Scan :=
  { s with cur := c :: s.cur }

/-- Close the current line; `inComment` says whether the next line starts inside
a block comment. -/
def Scan.endLine (s : Scan) (next : Mode) (inComment : Bool) : Scan :=
  { mode := next, cur := [], commented := inComment,
    done := { residue := s.cur.reverse, commented := s.commented } :: s.done }

/-- The scanner on one character outside comments and literals. -/
def Scan.stepNormal (s : Scan) (c : Char) : Scan :=
  if c = '/' then { s with mode := Mode.slash }
  else if c = dquote then { s.emit c with mode := Mode.str }
  else if c = squote then { s.emit c with mode := Mode.chr }
  else { s.emit c with mode := Mode.normal }

/-- The scanner on one character of a logical line. -/
def Scan.step (s : Scan) (c : Char) : Scan :=
  match s.mode with
  | Mode.normal => s.stepNormal c
  | Mode.slash =>
    if c = '/' then { s.emit ' ' with mode := Mode.lineComment, commented := true }
    else if c = '*' then { s.emit ' ' with mode := Mode.blockComment, commented := true }
    else (s.emit '/').stepNormal c
  | Mode.lineComment => s
  | Mode.blockComment => if c = '*' then { s with mode := Mode.blockStar } else s
  | Mode.blockStar =>
    if c = '/' then { s with mode := Mode.normal }
    else if c = '*' then s
    else { s with mode := Mode.blockComment }
  | Mode.str =>
    if c = backslash then { s.emit c with mode := Mode.strEsc }
    else if c = dquote then { s.emit c with mode := Mode.normal }
    else s.emit c
  | Mode.strEsc => { s.emit c with mode := Mode.str }
  | Mode.chr =>
    if c = backslash then { s.emit c with mode := Mode.chrEsc }
    else if c = squote then { s.emit c with mode := Mode.normal }
    else s.emit c
  | Mode.chrEsc => { s.emit c with mode := Mode.chr }

/-- The scanner at the end of a logical line: a block comment runs on into the
next line, everything else ends with the line. -/
def Scan.newline (s : Scan) : Scan :=
  match s.mode with
  | Mode.slash => (s.emit '/').endLine Mode.normal false
  | Mode.blockComment => s.endLine Mode.blockComment true
  | Mode.blockStar => s.endLine Mode.blockComment true
  | _ => s.endLine Mode.normal false

def Scan.line (s : Scan) (l : List Char) : Scan :=
  (l.foldl Scan.step s).newline

/-- Phase 3 over a whole file. -/
def stripComments (s : String) : List Line :=
  ((logicalLines s).foldl Scan.line
    { mode := Mode.normal, cur := [], commented := false, done := [] }).done.reverse

/-! ## Translation phase 4: directives -/

/-- A top-level item of a translation unit before preprocessing. -/
inductive Item
  /-- a line holding nothing but a comment (or part of one) -/
  | comment
  /-- directive `#define name body` -/
  | define (name : String) (body : String)
  /-- directive `#undef name` -/
  | undef (name : String)
  /-- directive `#include "path"` -/
  | incl (path : String)
  /-- directive `#include <path>` -/
  | inclSys (path : String)
  /-- any other directive: conditionals, pragmas, ... -/
  | directive (name : String) (rest : String)
  /-- tokens of the translation unit itself: declarations, definitions, statements -/
  | code (text : String)
  deriving DecidableEq

def isSpace (c : Char) : Bool :=
  c = ' ' || c = Char.ofNat 9 || c = Char.ofNat 11 || c = Char.ofNat 12 || c = Char.ofNat 13

def isIdentChar (c : Char) : Bool :=
  c.isAlphanum || c = '_'

def trimLeft (l : List Char) : List Char :=
  l.dropWhile isSpace

def trim (l : List Char) : List Char :=
  (trimLeft (trimLeft l).reverse).reverse

/-- The operand of `#include`, after the directive name. -/
def parseInclude (rest : List Char) : Item :=
  match trimLeft rest with
  | c :: cs =>
    if c = dquote then
      if cs.contains dquote then Item.incl (String.mk (cs.takeWhile (fun x => x != dquote)))
      else Item.directive "include" (String.mk (trim rest))
    else if c = '<' then
      if cs.contains '>' then Item.inclSys (String.mk (cs.takeWhile (fun x => x != '>')))
      else Item.directive "include" (String.mk (trim rest))
    else Item.directive "include" (String.mk (trim rest))
  | [] => Item.directive "include" ""

/-- A directive line, after its `#`. -/
def parseDirective (afterHash : List Char) : Item :=
  let l := trimLeft afterHash
  let name := String.mk (l.takeWhile isIdentChar)
  let rest := l.dropWhile isIdentChar
  if name = "define" then
    let r := trimLeft rest
    let m := r.takeWhile isIdentChar
    if m.isEmpty then Item.directive name (String.mk (trim rest))
    else Item.define (String.mk m) (String.mk (trim (r.dropWhile isIdentChar)))
  else if name = "undef" then
    let r := trimLeft rest
    let m := r.takeWhile isIdentChar
    if m.isEmpty then Item.directive name (String.mk (trim rest))
    else Item.undef (String.mk m)
  else if name = "include" then parseInclude rest
  else Item.directive name (String.mk (trim rest))

/-- The item a line stands for; a blank line stands for none. -/
def classify (l : Line) : Option Item :=
  match trimLeft l.residue with
  | [] => if l.commented then some Item.comment else none
  | c :: cs =>
    if c = '#' then some (parseDirective cs)
    else some (Item.code (String.mk (trim l.residue)))

/-- The item of each logical line of a source file: entry `k` belongs to line
`k + 1`. -/
def lineItems (s : String) : List (Option Item) :=
  (stripComments s).map classify

/-- The top-level items of a source file, in order. -/
def topLevelItems (s : String) : List Item :=
  (lineItems s).filterMap id

/-! ## The effect of the directives -/

/-- What the preprocessed translation unit is made of: the content of an included
file, read with the macros defined at the point of inclusion, or tokens written
in the file itself. -/
inductive Chunk
  | fromHeader (path : String) (defined : List String)
  | ownTokens (text : String)
  deriving DecidableEq

/-- Preprocessor state: the macro table and the output so far. -/
structure PPState where
  macros : List (String × String)
  out : List Chunk
  deriving DecidableEq

/-- The names in the macro table. -/
def PPState.defined (st : PPState) : List String :=
  st.macros.map Prod.fst

/-- One item through the preprocessor.  Directives that are not modelled
(conditionals, pragmas, system includes) stop it. -/
def ppStep (st : PPState) : Item → Option PPState
  | Item.comment => some st
  | Item.define n b => some { st with macros := st.macros.filter (fun m => m.1 != n) ++ [(n, b)] }
  | Item.undef n => some { st with macros := st.macros.filter (fun m => m.1 != n) }
  | Item.incl p => some { st with out := st.out ++ [Chunk.fromHeader p st.defined] }
  | Item.inclSys _ => none
  | Item.directive _ _ => none
  | Item.code t => some { st with out := st.out ++ [Chunk.ownTokens t] }

def ppRun : PPState → List Item → Option PPState
  | st, [] => some st
  | st, it :: rest =>
    match ppStep st it with
    | some st1 => ppRun st1 rest
    | none => none

/-- The preprocessed translation unit of a source file. -/
def preprocess (s : String) : Option (List Chunk) :=
  (ppRun { macros := [], out := [] } (topLevelItems s)).map PPState.out

/-! ## The preprocessor model in general -/

theorem ppRun_append (st : PPState) (xs ys : List Item) :
    ppRun st (xs ++ ys) = (ppRun st xs).bind (fun st1 => ppRun st1 ys) := by
  induction xs generalizing st with
  | nil => simp [ppRun]
  | cons x xs ih =>
    simp only [List.cons_append, ppRun]
    cases h : ppStep st x with
    | none => simp
    | some st1 => simpa using ih st1

theorem ppStep_out_mono {st st1 : PPState} {it : Item} (h : ppStep st it = some st1)
    {c : Chunk} (hc : c ∈ st.out) : c ∈ st1.out := by
  cases it <;> simp [ppStep] at h <;> subst h <;> simp [hc]

theorem ppRun_out_mono {its : List Item} {st st1 : PPState} (h : ppRun st its = some st1)
    {c : Chunk} (hc : c ∈ st.out) : c ∈ st1.out := by
  induction its generalizing st with
  | nil => simp [ppRun] at h; subst h; exact hc
  | cons x xs ih =>
    simp only [ppRun] at h
    cases hx : ppStep st x with
    | none => simp [hx] at h
    | some st2 =>
      rw [hx] at h
      exact ih h (ppStep_out_mono hx hc)

/-- A macro stays defined across every item but its own `#undef`. -/
theorem ppStep_keeps_defined {st st1 : PPState} {it : Item} {n : String}
    (h : ppStep st it = some st1) (hu : it ≠ Item.undef n) (hn : n ∈ st.defined) :
    n ∈ st1.defined := by
  cases it with
  | comment => simp [ppStep] at h; subst h; exact hn
  | define m b =>
    simp [ppStep] at h
    subst h
    simp only [PPState.defined, List.mem_map, Prod.exists, exists_and_right, exists_eq_right,
      List.mem_append, List.mem_filter, List.mem_singleton, Prod.mk.injEq] at hn ⊢
    obtain ⟨b0, hb0⟩ := hn
    by_cases hm : n = m
    · exact ⟨b, Or.inr ⟨hm, rfl⟩⟩
    · exact ⟨b0, Or.inl ⟨hb0, by simpa using hm⟩⟩
  | undef m =>
    simp [ppStep] at h
    subst h
    have hm : n ≠ m := fun e => hu (by rw [e])
    simp only [PPState.defined, List.mem_map] at hn ⊢
    obtain ⟨e, he, hen⟩ := hn
    exact ⟨e, List.mem_filter.mpr ⟨he, by simpa [hen] using hm⟩, hen⟩
  | incl p => simp [ppStep] at h; subst h; exact hn
  | inclSys p => simp [ppStep] at h
  | directive d r => simp [ppStep] at h
  | code t => simp [ppStep] at h; subst h; exact hn

theorem ppRun_keeps_defined {its : List Item} {st st1 : PPState} {n : String}
    (h : ppRun st its = some st1) (hu : Item.undef n ∉ its) (hn : n ∈ st.defined) :
    n ∈ st1.defined := by
  induction its generalizing st with
  | nil => simp [ppRun] at h; subst h; exact hn
  | cons x xs ih =>
    simp only [ppRun] at h
    simp only [List.mem_cons, not_or] at hu
    cases hx : ppStep st x with
    | none => simp [hx] at h
    | some st2 =>
      rw [hx] at h
      exact ih h hu.2 (ppStep_keeps_defined hx (fun e => hu.1 e.symm) hn)

/-- A macro defined before an inclusion, and not undefined in between, is defined
where the included file is read. -/
theorem define_visible_at_include {st st1 : PPState} {pre mid post : List Item}
    {n b p : String} (hu : Item.undef n ∉ mid)
    (h : ppRun st (pre ++ Item.define n b :: (mid ++ Item.incl p :: post)) = some st1) :
    ∃ defined, Chunk.fromHeader p defined ∈ st1.out ∧ n ∈ defined := by
  rw [ppRun_append] at h
  cases h1 : ppRun st pre with
  | none => simp [h1] at h
  | some s1 =>
    simp only [h1, Option.some_bind, ppRun, ppStep] at h
    rw [ppRun_append] at h
    cases h2 : ppRun { s1 with macros := s1.macros.filter (fun m => m.1 != n) ++ [(n, b)] } mid with
    | none => simp [h2] at h
    | some s2 =>
      simp only [h2, Option.some_bind, ppRun, ppStep] at h
      refine ⟨s2.defined, ppRun_out_mono h (by simp [PPState.defined]), ?_⟩
      exact ppRun_keeps_defined h2 hu (by simp [PPState.defined])

/-- A translation unit without tokens of its own gets all its content from the
files it includes. -/
theorem ppRun_no_own_tokens {its : List Item} {st st1 : PPState}
    (h : ppRun st its = some st1) (hc : ∀ t, Item.code t ∉ its)
    {t : String} (ht : Chunk.ownTokens t ∈ st1.out) : Chunk.ownTokens t ∈ st.out := by
  induction its generalizing st with
  | nil => simp [ppRun] at h; subst h; exact ht
  | cons x xs ih =>
    simp only [ppRun] at h
    cases hx : ppStep st x with
    | none => simp [hx] at h
    | some st2 =>
      rw [hx] at h
      have h2 := ih h (fun t ht => hc t (List.mem_cons_of_mem _ ht)) 
      cases x with
      | code u => exact absurd (List.mem_cons_self _ _) (hc u)
      | comment => simp [ppStep] at hx; subst hx; exact h2
      | define m b => simp [ppStep] at hx; subst hx; exact h2
      | undef m => simp [ppStep] at hx; subst hx; exact h2
      | incl p => simp [ppStep] at hx; subst hx; simpa using h2
      | inclSys p => simp [ppStep] at hx
      | directive d r => simp [ppStep] at hx

/-! ## The model on small inputs -/

set_option maxRecDepth 100000 in
/-- A declaration written in the file is an item of kind code and reaches the
translation unit as tokens of its own. -/
theorem preprocess_own_declaration :
    topLevelItems "#include \"stb_image.h\"\nint stbi_wrapper_version(void);" =
      [Item.incl "stb_image.h", Item.code "int stbi_wrapper_version(void);"] ∧
    preprocess "#include \"stb_image.h\"\nint stbi_wrapper_version(void);" =
      some [Chunk.fromHeader "stb_image.h" [],
            Chunk.ownTokens "int stbi_wrapper_version(void);"] := by
  decide

set_option maxRecDepth 100000 in
/-- A directive inside a block comment is no directive. -/
theorem preprocess_commented_define :
    preprocess "/* off for now\n#define STBI_NO_SIMD\n*/\n#include \"stb_image.h\"" =
      some [Chunk.fromHeader "stb_image.h" []] := by
  decide

set_option maxRecDepth 100000 in
/-- A line comment that ends in a backslash takes the next line with it. -/
theorem preprocess_spliced_comment :
    preprocess "// see below \\\n#define STBI_NO_SIMD\n#include \"stb_image.h\"" =
      some [Chunk.fromHeader "stb_image.h" []] := by
  decide

set_option maxRecDepth 100000 in
/-- A macro defined after the inclusion, or undefined before it, is not defined
where the header is read. -/
theorem preprocess_define_too_late :
    preprocess "#include \"stb_image.h\"\n#define STBI_NO_SIMD" =
      some [Chunk.fromHeader "stb_image.h" []] ∧
    preprocess "#define STBI_NO_SIMD\n#undef STBI_NO_SIMD\n#include \"stb_image.h\"" =
      some [Chunk.fromHeader "stb_image.h" []] := by
  decide

set_option maxRecDepth 100000 in
/-- Conditional compilation is outside the model: the preprocessor gives no
result rather than a wrong one. -/
theorem preprocess_conditional :
    preprocess "#ifdef __SSE2__\n#define STBI_NO_SIMD\n#endif\n#include \"stb_image.h\"" =
      none := by
  decide

/-! ## build/stb_wrapper.c -/

set_option maxRecDepth 100000 in
/-- The file has eight lines and none ends in a backslash, so logical lines are
source lines. -/
theorem logicalLines_stb_wrapper_c :
    (physicalLines stb_wrapper_c).length = 8 ∧
    logicalLines stb_wrapper_c = physicalLines stb_wrapper_c := by
  decide

set_option maxRecDepth 100000 in
/-- The eight lines of the file, item by item: line 5 is blank. -/
theorem lineItems_stb_wrapper_c :
    lineItems stb_wrapper_c =
      [some Item.comment,
       some (Item.define "STB_IMAGE_IMPLEMENTATION" ""),
       some (Item.define "STBI_NO_SIMD" ""),
       some (Item.incl "stb_image.h"),
       none,
       some Item.comment,
       some Item.comment,
       some Item.comment] := by
  decide

theorem topLevelItems_stb_wrapper_c :
    topLevelItems stb_wrapper_c =
      [Item.comment,
       Item.define "STB_IMAGE_IMPLEMENTATION" "",
       Item.define "STBI_NO_SIMD" "",
       Item.incl "stb_image.h",
       Item.comment, Item.comment, Item.comment] := by
  unfold topLevelItems
  rw [lineItems_stb_wrapper_c]
  rfl

theorem preprocess_stb_wrapper_c :
    preprocess stb_wrapper_c =
      some [Chunk.fromHeader "stb_image.h" ["STB_IMAGE_IMPLEMENTATION", "STBI_NO_SIMD"]] := by
  unfold preprocess
  rw [topLevelItems_stb_wrapper_c]
  rfl

/-! ## What the file contains -/

/-- C1: build/stb_wrapper.c holds no definition of its own.  Every top-level item
of the file is a comment, the definition of the macro STB_IMAGE_IMPLEMENTATION
or STBI_NO_SIMD, or the inclusion of stb_image.h, and that inclusion occurs
once; no item is code of the file itself (a function, type, variable or
statement), and the preprocessed translation unit is the content of
stb_image.h and nothing else. -/
theorem stb_wrapper_no_original_definitions :
    (∀ it ∈ topLevelItems stb_wrapper_c,
      it = Item.comment ∨ it = Item.define "STB_IMAGE_IMPLEMENTATION" "" ∨
      it = Item.define "STBI_NO_SIMD" "" ∨ it = Item.incl "stb_image.h") ∧
    (topLevelItems stb_wrapper_c).count (Item.incl "stb_image.h") = 1 ∧
    (∀ t, Item.code t ∉ topLevelItems stb_wrapper_c) ∧
    ∃ defined, preprocess stb_wrapper_c = some [Chunk.fromHeader "stb_image.h" defined] := by
  rw [preprocess_stb_wrapper_c, topLevelItems_stb_wrapper_c]
  refine ⟨by decide, by decide, fun t => by simp, _, rfl⟩

/-- C2: STBI_NO_SIMD is defined in build/stb_wrapper.c, on a line before the one
that includes stb_image.h, so stb_image.h is read with STBI_NO_SIMD defined:
the SIMD switch of the library is off. -/
theorem stbi_no_simd_defined_before_include :
    (∃ i j : Nat, i < j ∧
      (lineItems stb_wrapper_c)[i]? = some (some (Item.define "STBI_NO_SIMD" "")) ∧
      (lineItems stb_wrapper_c)[j]? = some (some (Item.incl "stb_image.h"))) ∧
    ∃ defined, preprocess stb_wrapper_c = some [Chunk.fromHeader "stb_image.h" defined] ∧
      "STBI_NO_SIMD" ∈ defined := by
  rw [preprocess_stb_wrapper_c, lineItems_stb_wrapper_c]
  exact ⟨⟨2, 3, by decide, rfl, rfl⟩, _, rfl, by decide⟩

/-- C9: STB_IMAGE_IMPLEMENTATION is defined in build/stb_wrapper.c on a line
before the one that includes stb_image.h, so stb_image.h is read with
STB_IMAGE_IMPLEMENTATION defined and this translation unit carries the
library's implementation; the file defines no wrapper function: none of its
items is code. -/
theorem stb_image_implementation_defined_before_include :
    (∃ i j : Nat, i < j ∧
      (lineItems stb_wrapper_c)[i]? =
        some (some (Item.define "STB_IMAGE_IMPLEMENTATION" "")) ∧
      (lineItems stb_wrapper_c)[j]? = some (some (Item.incl "stb_image.h"))) ∧
    (∃ defined, preprocess stb_wrapper_c = some [Chunk.fromHeader "stb_image.h" defined] ∧
      "STB_IMAGE_IMPLEMENTATION" ∈ defined) ∧
    ∀ t, Item.code t ∉ topLevelItems stb_wrapper_c := by
  rw [preprocess_stb_wrapper_c, lineItems_stb_wrapper_c, topLevelItems_stb_wrapper_c]
  exact ⟨⟨1, 3, by decide, rfl, rfl⟩, ⟨_, rfl, by decide⟩, fun t => by simp⟩

end StbWrapper
